import Mathlib

/-!
Shallow embedding of `src/utils/utils.ts` from the memo repository: pure
path/string utilities, the reference token parser (`extractLongRef`,
`extractShortRef`) and the reference locator (`findReferences`).

Strings are modelled as `List Char` internally (`String` wrappers keep the
source names).  JavaScript regex operations are embedded by their concrete
semantics on the patterns the source uses:

* `/\.(md|png|jpg|jpeg|svg|gif)/` — unanchored: a match is a `.`-prefixed
  extension word occurring anywhere in the string; `exec` truthiness is
  "some position carries such a substring", `replace(re, '')` removes the
  leftmost such occurrence (the alternatives are pairwise non-prefix, so at
  a given position at most one alternative matches).
* `/^\/+|^\\+/g` (trimLeadingSlash) — `^` only matches at offset 0 without
  the `m` flag, so at most one replacement happens: a maximal leading run
  of `/`, or, failing that, a maximal leading run of `\`.
* `/\/+|^\\+$/g` (trimTrailingSlash, as written in the source) — the first
  alternative is unanchored and removes every run of `/` anywhere; the
  second can only fire when the whole string is a nonempty run of `\`.
* `string.replace(stringPattern, '')` — removes the first literal
  occurrence of the pattern (`replFirst`).
-/

/-- Image extension alternatives of `imageExtsRegex`, in source order. -/
def imageExts : List (List Char) :=
  [".png".data, ".jpg".data, ".jpeg".data, ".svg".data, ".gif".data]

/-- Extension alternatives of `allExtsRegex`, in source order. -/
def allExts : List (List Char) := ".md".data :: imageExts

/-- Does one of `pats` match (as a literal) at the very start of `l`? -/
def matchesOneOf (pats : List (List Char)) (l : List Char) : Bool :=
  pats.any (fun p => p.isPrefixOf l)

/-- Does one of `pats` occur (as a literal substring) anywhere in `l`?
Embeds `exec` truthiness of an unanchored alternation regex. -/
def containsOneOf (pats : List (List Char)) : List Char → Bool
  | [] => matchesOneOf pats []
  | c :: cs => matchesOneOf pats (c :: cs) || containsOneOf pats cs

/-- `allExtsRegex.exec(path)` truthiness. -/
def containsAnyExt (l : List Char) : Bool := containsOneOf allExts l

/-- `containsImageExt` from the source: `!!imageExtsRegex.exec(path)`. -/
def containsImageExt (path : String) : Bool := containsOneOf imageExts path.data

/-- `containsMarkdownExt` from the source: `!!/\.md$/.exec(path)`. -/
def containsMarkdownExt (path : String) : Bool := ".md".data.isSuffixOf path.data

/-- If some extension alternative matches at the head of `l`, drop it. -/
def extAt? (l : List Char) : Option (List Char) :=
  allExts.findSome? (fun p => if p.isPrefixOf l then some (l.drop p.length) else none)

/-- `str.replace(allExtsRegex, '')`: remove the leftmost extension match. -/
def removeFirstExt : List Char → List Char
  | [] => []
  | c :: cs =>
    match extAt? (c :: cs) with
    | some rest => rest
    | none => c :: removeFirstExt cs

/-- `str.replace(pat, '')` with a string pattern: remove the first literal
occurrence of `pat`, if any. -/
def replFirst (pat : List Char) : List Char → List Char
  | [] => []
  | c :: cs =>
    if pat.isPrefixOf (c :: cs) then (c :: cs).drop pat.length
    else c :: replFirst pat cs

/-- `value.replace(/^\/+|^\\+/g, '')` on char lists. -/
def trimLeadingSlashL (l : List Char) : List Char :=
  match l with
  | [] => []
  | c :: cs =>
    if c = '/' then (c :: cs).dropWhile (· = '/')
    else if c = '\\' then (c :: cs).dropWhile (· = '\\')
    else c :: cs

/-- `value.replace(/\/+|^\\+$/g, '')` on char lists, exactly as the source
writes the pattern: every `/` anywhere is removed, and a string consisting
entirely of backslashes is emptied. -/
def trimTrailingSlashL (l : List Char) : List Char :=
  if !l.isEmpty && l.all (· = '\\') then [] else l.filter (· ≠ '/')

/-- `trimLeadingSlash` from the source. -/
def trimLeadingSlash (value : String) : String := ⟨trimLeadingSlashL value.data⟩

/-- `trimTrailingSlash` from the source. -/
def trimTrailingSlash (value : String) : String := ⟨trimTrailingSlashL value.data⟩

/-- `trimSlashes = trimLeadingSlash(trimTrailingSlash(value))`. -/
def trimSlashesL (l : List Char) : List Char := trimLeadingSlashL (trimTrailingSlashL l)

/-- `trimSlashes` from the source. -/
def trimSlashes (value : String) : String := ⟨trimSlashesL value.data⟩

/-- `isLongRef` from the source: `path.split('/').length > 1`. -/
def isLongRef (path : String) : Bool := decide ('/' ∈ path.data)

/-- JS `s.split('|')` consumed by the destructuring `[refStr, label = '']`:
the first component is everything before the first `|`; the second is the
segment between the first and the second `|` (or `''` when there is no `|`). -/
def splitBar (l : List Char) : List Char × List Char :=
  match l.dropWhile (· ≠ '|') with
  | [] => (l.takeWhile (· ≠ '|'), [])
  | _ :: after => (l.takeWhile (· ≠ '|'), after.takeWhile (· ≠ '|'))

/-- Node `path.basename` (posix): drop trailing `/` runs, then keep the
segment after the last `/`. -/
def basenameL (l : List Char) : List Char :=
  ((l.reverse.dropWhile (· = '/')).takeWhile (· ≠ '/')).reverse

/-- `RefT` as used by the source: a canonical ref and a display label. -/
structure RefT where
  ref : String
  label : String
deriving DecidableEq, Repr

/-- `extractLongRef(basePathParam, pathParam, preserveExtension?)` from the
source.  The optional JS parameter is an explicit `Bool` (absent ≙ `false`). -/
def extractLongRef (basePathParam pathParam : String) (preserveExtension : Bool) :
    Option RefT :=
  if containsAnyExt pathParam.data then
    let ref := (replFirst basePathParam.data pathParam.data).map
      (fun c => if c = '\\' then '/' else c)
    if preserveExtension then
      let p := splitBar (trimLeadingSlashL ref)
      some ⟨⟨p.1⟩, ⟨p.2⟩⟩
    else
      let p := splitBar (trimLeadingSlashL (removeFirstExt ref))
      some ⟨⟨p.1⟩, ⟨p.2⟩⟩
  else none

/-- `extractShortRef(pathParam, preserveExtension?)` from the source. -/
def extractShortRef (pathParam : String) (preserveExtension : Bool) : Option RefT :=
  if containsAnyExt pathParam.data then
    let ref := basenameL pathParam.data
    if preserveExtension then
      let p := splitBar (trimLeadingSlashL ref)
      some ⟨⟨p.1⟩, ⟨p.2⟩⟩
    else
      let p := splitBar (trimLeadingSlashL (removeFirstExt ref))
      some ⟨⟨p.1⟩, ⟨p.2⟩⟩
  else none

/-- One located reference occurrence, as built by `findReferences`:
`location` is flattened into the file path plus the `(line, character)`
start and end of the inner token range; `matchText` is the snippet. -/
structure FoundRefT where
  path : String
  rangeStart : Nat × Nat
  rangeEnd : Nat × Nat
  matchText : String
deriving DecidableEq, Repr

/-- Case-insensitive (ASCII, as `Char.toLower`) literal prefix test:
the `i` flag of the search regex applied to the spliced ref. -/
def ciPrefixOf : List Char → List Char → Bool
  | [], _ => true
  | _ :: _, [] => false
  | a :: as, b :: bs => (a.toLower = b.toLower) && ciPrefixOf as bs

/-- Greedy backtracking of `.*` before the closing `\]\]`: the largest `m`
such that the first `m` characters of `u` contain no line terminator and
`]]` follows immediately after them. -/
def greedyClose (u : List Char) : Option Nat :=
  (List.range (u.length + 1)).reverse.find?
    (fun m => (u.take m).all (fun c => !(c = '\n' || c = '\r')) &&
      "]]".data.isPrefixOf (u.drop m))

/-- Attempt of `\[\[(REF(\|.*)?)\]\]` (flag `i`) anchored at the head of
`l`, for a ref without regex metacharacters; returns the length of capture
group 1 on success (the whole match is 4 characters longer). -/
def tryMatchAt (ref : List Char) (l : List Char) : Option Nat :=
  if "[[".data.isPrefixOf l then
    let rest := l.drop 2
    if ciPrefixOf ref rest then
      let t := rest.drop ref.length
      match t with
      | '|' :: u =>
        match greedyClose u with
        | some m => some (ref.length + 1 + m)
        | none => if "]]".data.isPrefixOf t then some ref.length else none
      | _ => if "]]".data.isPrefixOf t then some ref.length else none
    else none
  else none

/-- Global scan (flag `g`): leftmost matches, resuming after each match
end.  Every step consumes at least one character, so fuel equal to the
initial length makes the recursion structural without changing results. -/
def scanMatchesFuel (ref : List Char) : Nat → List Char → Nat → List (Nat × Nat)
  | 0, _, _ => []
  | _, [], _ => []
  | fuel + 1, c :: cs, pos =>
    match tryMatchAt ref (c :: cs) with
    | some g1 => (pos, g1) :: scanMatchesFuel ref fuel ((c :: cs).drop (g1 + 4)) (pos + g1 + 4)
    | none => scanMatchesFuel ref fuel cs (pos + 1)

/-- All `(index, group-1 length)` pairs of the search regex over `l`. -/
def scanMatches (ref : List Char) (l : List Char) : List (Nat × Nat) :=
  scanMatchesFuel ref l.length l 0

/-- `document.positionAt(offset)`: `(line, character)` of a character
offset, with `\n` as the line separator. -/
def positionAt (l : List Char) (n : Nat) : Nat × Nat :=
  let pre := l.take n
  (pre.count '\n', (pre.reverse.takeWhile (· ≠ '\n')).length)

/-- `document.lineAt(line).text`: the text of a line without terminators. -/
def lineTextAt (l : List Char) (line : Nat) : List Char :=
  (l.splitOn '\n').getD line []

/-- The per-file body of `findReferences`: one `FoundRefT` per match, with
`offset = index + 2`, the range endpoints via `positionAt`, and the snippet
from two characters before the match start to the end of the line. -/
def findInFile (ref : String) (path : String) (content : String) : List FoundRefT :=
  (scanMatches ref.data content.data).map (fun im =>
    let offset := im.1 + 2
    let refStart := positionAt content.data offset
    let lineText := lineTextAt content.data refStart.1
    let refEnd := positionAt content.data (offset + im.2)
    { path := path
      rangeStart := refStart
      rangeEnd := refEnd
      matchText := ⟨lineText.drop (refStart.2 - 2)⟩ })

/-- `fs.readFileSync` over an explicit file system (path ↦ content);
`none` models the thrown error for an unreadable/missing path. -/
def readFile (fileSystem : List (String × String)) (p : String) : Option String :=
  (fileSystem.find? (fun e => e.1 == p)).map (·.2)

/-- The loop of `findReferences` over the cached markdown paths.  An
excluded path is skipped before any read; a failing read is an uncaught
exception, which aborts the whole call (`none`). -/
def findReferencesAux (fileSystem : List (String × String)) (ref : String)
    (excludePaths : List String) : List String → Option (List FoundRefT)
  | [] => some []
  | p :: ps =>
    if p ∈ excludePaths then findReferencesAux fileSystem ref excludePaths ps
    else
      match readFile fileSystem p with
      | none => none
      | some content =>
        (findReferencesAux fileSystem ref excludePaths ps).map
          (fun rest => findInFile ref p content ++ rest)

/-- `findReferences(ref, excludePaths)` from the source.  The process-wide
`workspaceCache.markdownUris` and the file system are explicit parameters;
the result is `none` when the JS call rejects with an exception. -/
def findReferences (fileSystem : List (String × String)) (markdownUris : List String)
    (ref : String) (excludePaths : List String) : Option (List FoundRefT) :=
  findReferencesAux fileSystem ref excludePaths markdownUris

/-! ## Helper lemmas -/

lemma dropWhile_head_false {α} (p : α → Bool) :
    ∀ (l : List α) {c : α} {cs : List α}, l.dropWhile p = c :: cs → p c = false := by
  intro l
  induction l with
  | nil => intro c cs h; simp [List.dropWhile] at h
  | cons a t ih =>
    intro c cs h
    by_cases hp : p a
    · rw [List.dropWhile_cons_of_pos hp] at h
      exact ih h
    · rw [List.dropWhile_cons_of_neg hp] at h
      cases h
      simpa using hp

lemma no_slash_trimTrailingSlashL (l : List Char) : '/' ∉ trimTrailingSlashL l := by
  unfold trimTrailingSlashL
  split
  · simp
  · intro h
    rw [List.mem_filter] at h
    simp at h

lemma trimLeadingSlashL_subset (l : List Char) : trimLeadingSlashL l ⊆ l := by
  unfold trimLeadingSlashL
  match l with
  | [] => simp
  | c :: cs =>
    by_cases h1 : c = '/'
    · simp only [if_pos h1]
      exact List.dropWhile_subset _
    · by_cases h2 : c = '\\'
      · simp only [if_neg h1, if_pos h2]
        exact List.dropWhile_subset _
      · simp [if_neg h1, if_neg h2, List.Subset.refl]

lemma trimLeadingSlashL_shape {l : List Char} (h : '/' ∉ l) :
    trimLeadingSlashL l = [] ∨
      ∃ c cs, trimLeadingSlashL l = c :: cs ∧ c ≠ '/' ∧ c ≠ '\\' := by
  match l with
  | [] => exact Or.inl rfl
  | a :: t =>
    have ha : a ≠ '/' := fun hEq => h (hEq ▸ List.mem_cons_self a t)
    by_cases h2 : a = '\\'
    · have hres : trimLeadingSlashL (a :: t) = (a :: t).dropWhile (· = '\\') := by
        simp [trimLeadingSlashL, if_neg ha, if_pos h2]
      cases hd : (a :: t).dropWhile (· = '\\') with
      | nil => exact Or.inl (hres.trans hd)
      | cons c cs =>
        refine Or.inr ⟨c, cs, hres.trans hd, ?_, ?_⟩
        · intro hEq
          apply h
          apply List.dropWhile_subset (fun x => decide (x = '\\'))
          rw [hd, ← hEq]
          exact List.mem_cons_self c cs
        · have := dropWhile_head_false (fun x => decide (x = '\\')) (a :: t) hd
          simpa using this
    · refine Or.inr ⟨a, t, ?_, ha, h2⟩
      simp [trimLeadingSlashL, if_neg ha, if_neg h2]

lemma trimSlashesL_fixed {y : List Char} (h1 : '/' ∉ y)
    (h2 : y = [] ∨ ∃ c cs, y = c :: cs ∧ c ≠ '/' ∧ c ≠ '\\') :
    trimSlashesL y = y := by
  rcases h2 with rfl | ⟨c, cs, rfl, hc1, hc2⟩
  · rfl
  · have htrail : trimTrailingSlashL (c :: cs) = c :: cs := by
      unfold trimTrailingSlashL
      rw [if_neg, List.filter_eq_self.mpr]
      · intro a ha
        simp only [decide_eq_true_eq]
        intro hEq
        exact h1 (hEq ▸ ha)
      · simp [hc2]
    show trimLeadingSlashL (trimTrailingSlashL (c :: cs)) = c :: cs
    rw [htrail]
    simp [trimLeadingSlashL, if_neg hc1, if_neg hc2]

lemma trimSlashesL_idem (l : List Char) : trimSlashesL (trimSlashesL l) = trimSlashesL l := by
  have hz : '/' ∉ trimTrailingSlashL l := no_slash_trimTrailingSlashL l
  have hy1 : '/' ∉ trimSlashesL l := fun h => hz (trimLeadingSlashL_subset _ h)
  exact trimSlashesL_fixed hy1 (trimLeadingSlashL_shape hz)

lemma matchesOneOf_iff (pats : List (List Char)) (l : List Char) :
    matchesOneOf pats l = true ↔ ∃ p ∈ pats, ∃ post, l = p ++ post := by
  unfold matchesOneOf
  rw [List.any_eq_true]
  constructor
  · rintro ⟨p, hp, hpre⟩
    rw [List.isPrefixOf_iff_prefix] at hpre
    obtain ⟨post, hpost⟩ := hpre
    exact ⟨p, hp, post, hpost.symm⟩
  · rintro ⟨p, hp, post, rfl⟩
    exact ⟨p, hp, List.isPrefixOf_iff_prefix.mpr (List.prefix_append _ _)⟩

lemma containsOneOf_iff (pats : List (List Char)) (l : List Char) :
    containsOneOf pats l = true ↔ ∃ p ∈ pats, ∃ pre post, l = pre ++ p ++ post := by
  induction l with
  | nil =>
    rw [show containsOneOf pats [] = matchesOneOf pats [] from rfl, matchesOneOf_iff]
    constructor
    · rintro ⟨p, hp, post, hl⟩
      exact ⟨p, hp, [], post, by simpa using hl⟩
    · rintro ⟨p, hp, pre, post, hl⟩
      rcases List.append_eq_nil.mp (List.append_eq_nil.mp hl.symm).1 with ⟨h1, h2⟩
      exact ⟨p, hp, post, by simp [h2, (List.append_eq_nil.mp hl.symm).2]⟩
  | cons c cs ih =>
    rw [show containsOneOf pats (c :: cs) =
          (matchesOneOf pats (c :: cs) || containsOneOf pats cs) from rfl,
        Bool.or_eq_true, matchesOneOf_iff, ih]
    constructor
    · rintro (⟨p, hp, post, hl⟩ | ⟨p, hp, pre, post, hl⟩)
      · exact ⟨p, hp, [], post, by simpa using hl⟩
      · exact ⟨p, hp, c :: pre, post, by simp [hl]⟩
    · rintro ⟨p, hp, pre, post, hl⟩
      cases pre with
      | nil => exact Or.inl ⟨p, hp, post, by simpa using hl⟩
      | cons a pre' =>
        rw [List.cons_append, List.cons_append, List.cons.injEq] at hl
        exact Or.inr ⟨p, hp, pre', post, hl.2⟩

lemma extractLongRef_eq_none_iff (base s : String) (pe : Bool) :
    extractLongRef base s pe = none ↔ containsAnyExt s.data = false := by
  unfold extractLongRef
  cases h : containsAnyExt s.data
  · simp [h]
  · cases pe <;> simp [h]

lemma extractShortRef_eq_none_iff (s : String) (pe : Bool) :
    extractShortRef s pe = none ↔ containsAnyExt s.data = false := by
  unfold extractShortRef
  cases h : containsAnyExt s.data
  · simp [h]
  · cases pe <;> simp [h]

/-! ## Claim theorems -/

/-- Claim C2 (code bug, evaluation at the failing input): the source's
`trimTrailingSlash` pattern `/\/+|^\\+$/g` leaves its first alternative
unanchored, so `trimSlashes('/foo/bar/')` removes the interior separators
too and yields `'foobar'`, not the `'foo/bar'` the claim states. -/
theorem claim_C2_code_eval :
    trimSlashes "/foo/bar/" = "foobar" ∧ trimSlashes "/foo/bar/" ≠ "foo/bar" := by
  decide

/-- Claim C6: `extractLongRef('/notes/', '/notes/a/b.md')` gives
`{ref: 'a/b', label: ''}`, and with `preserveExtension` it gives
`{ref: 'a/b.md', label: ''}`. -/
theorem claim_C6_extractLongRef_examples :
    extractLongRef "/notes/" "/notes/a/b.md" false = some ⟨"a/b", ""⟩ ∧
    extractLongRef "/notes/" "/notes/a/b.md" true = some ⟨"a/b.md", ""⟩ := by
  decide

/-- Claim C7: `extractShortRef('/notes/a/b.md|My Note')` gives
`{ref: 'b', label: 'My Note'}`: basename, extension stripped, text after
the bar as label. -/
theorem claim_C7_extractShortRef_example :
    extractShortRef "/notes/a/b.md|My Note" false = some ⟨"b", "My Note"⟩ := by
  decide

/-- Claim C9: `trimSlashes` is idempotent on every string. -/
theorem claim_C9_trimSlashes_idempotent :
    ∀ s : String, trimSlashes (trimSlashes s) = trimSlashes s := by
  intro s
  show (⟨trimSlashesL (trimSlashesL s.data)⟩ : String) = ⟨trimSlashesL s.data⟩
  exact congrArg String.mk (trimSlashesL_idem s.data)

/-- Claim C3 (counterexample): `containsImageExt` is not an "ends with"
test — `'a.png.txt'` contains `.png` in the middle, ends with none of the
image extensions, yet the function returns `true`. -/
theorem claim_C3_counterexample :
    containsImageExt "a.png.txt" = true ∧
      (imageExts.any (fun e => e.isSuffixOf "a.png.txt".data)) = false := by
  decide

/-- Claim C3 (amended): `containsImageExt(path)` is true iff `path`
contains one of `.png`, `.jpg`, `.jpeg`, `.svg`, `.gif` as a substring
anywhere (case-sensitive) — the source regex is unanchored. -/
theorem claim_C3_contains_image_ext :
    ∀ path : String, containsImageExt path = true ↔
      ∃ e ∈ imageExts, ∃ pre post, path.data = pre ++ e ++ post := by
  intro path
  exact containsOneOf_iff imageExts path.data

/-- Claim C5: both extractors return `null` exactly when the input lacks
every recognized target extension (as a substring), and they are total —
`none` is the only failure mode. -/
theorem claim_C5_unrecognized_returns_none :
    ∀ (base s : String) (pe : Bool),
      (extractLongRef base s pe = none ↔
        ¬ ∃ e ∈ allExts, ∃ pre post, s.data = pre ++ e ++ post) ∧
      (extractShortRef s pe = none ↔
        ¬ ∃ e ∈ allExts, ∃ pre post, s.data = pre ++ e ++ post) := by
  intro base s pe
  have h := containsOneOf_iff allExts s.data
  constructor
  · rw [extractLongRef_eq_none_iff]
    rw [← h]
    unfold containsAnyExt
    exact ⟨fun hf => by simp [hf], fun hn => by simpa using hn⟩
  · rw [extractShortRef_eq_none_iff]
    rw [← h]
    unfold containsAnyExt
    exact ⟨fun hf => by simp [hf], fun hn => by simpa using hn⟩

lemma dropWhile_all_true {α} (p : α → Bool) :
    ∀ l : List α, (∀ x ∈ l, p x = true) → l.dropWhile p = [] := by
  intro l
  induction l with
  | nil => intro _; rfl
  | cons a t ih =>
    intro h
    rw [List.dropWhile_cons_of_pos (h a (List.mem_cons_self a t))]
    exact ih (fun x hx => h x (List.mem_cons_of_mem a hx))

/-- Claim C4 (counterexample): with a label containing a further `|`, the
destructuring of `split('|')` keeps only the segment between the first and
the second bar — the label of `extractShortRef('a.md|x|y')` is `'x'`, not
the `'x|y'` the claim requires. -/
theorem claim_C4_counterexample :
    extractShortRef "a.md|x|y" false = some ⟨"a", "x"⟩ ∧ ("x" : String) ≠ "x|y" := by
  decide

/-- Claim C4 (amended): the processed string is split on `|`: the ref is
everything before the first `|`; the label is the segment strictly between
the first and the second `|` (anything after a second `|` is dropped), and
defaults to the empty string when no `|` is present. -/
theorem claim_C4_split_on_bar :
    (∀ a rest : List Char, '|' ∉ a →
        splitBar (a ++ '|' :: rest) = (a, rest.takeWhile (· ≠ '|'))) ∧
    (∀ a : List Char, '|' ∉ a → splitBar a = (a, [])) ∧
    extractShortRef "a.md|x|y" false = some ⟨"a", "x"⟩ ∧
    extractLongRef "" "a.md|x|y" false = some ⟨"a", "x"⟩ := by
  refine ⟨?_, ?_, by decide, by decide⟩
  · intro a rest ha
    have hall : ∀ x ∈ a, (fun c => decide (c ≠ '|')) x = true := by
      intro x hx
      simp only [decide_eq_true_eq]
      exact fun hEq => ha (hEq ▸ hx)
    unfold splitBar
    rw [List.dropWhile_append_of_pos hall,
      List.dropWhile_cons_of_neg (by simp),
      List.takeWhile_append_of_pos hall,
      List.takeWhile_cons_of_neg (by simp)]
    simp
  · intro a ha
    have hall : ∀ x ∈ a, (fun c => decide (c ≠ '|')) x = true := by
      intro x hx
      simp only [decide_eq_true_eq]
      exact fun hEq => ha (hEq ▸ hx)
    unfold splitBar
    rw [dropWhile_all_true _ a hall, List.takeWhile_eq_self_iff.mpr hall]

/-- Claim C4 witness: the general split law applied at `'ab|cd|ef'`. -/
theorem claim_C4_split_on_bar_witness :
    splitBar ("ab".data ++ '|' :: "cd|ef".data) = ("ab".data, "cd".data) := by
  have := claim_C4_split_on_bar.1 "ab".data "cd|ef".data (by decide)
  simpa using this

lemma replFirst_here (base post : List Char) : replFirst base (base ++ post) = post := by
  cases base with
  | nil =>
    cases post with
    | nil => rfl
    | cons c cs =>
      show replFirst [] (c :: cs) = c :: cs
      unfold replFirst
      rw [if_pos (by rw [List.isPrefixOf_iff_prefix]; exact List.nil_prefix)]
      rfl
  | cons b bs =>
    show replFirst (b :: bs) (b :: (bs ++ post)) = post
    unfold replFirst
    rw [if_pos (by
      rw [List.isPrefixOf_iff_prefix]
      exact ⟨post, by simp⟩)]
    exact List.drop_left (b :: bs) post

lemma replFirst_append (base post : List Char) : ∀ pre : List Char,
    (∀ k, k < pre.length → base.isPrefixOf ((pre ++ base ++ post).drop k) = false) →
    replFirst base (pre ++ base ++ post) = pre ++ post := by
  intro pre
  induction pre with
  | nil =>
    intro _
    simpa using replFirst_here base post
  | cons a pre' ih =>
    intro h
    have h0 := h 0 (by simp)
    rw [List.drop_zero] at h0
    show replFirst base (a :: (pre' ++ base ++ post)) = a :: (pre' ++ post)
    unfold replFirst
    rw [if_neg (by
      intro hc
      rw [show ((a :: pre') ++ base ++ post) = a :: (pre' ++ base ++ post) by simp] at h0
      rw [h0] at hc
      cases hc)]
    refine congrArg (a :: ·) (ih ?_)
    intro k hk
    have := h (k + 1) (by simpa using Nat.succ_lt_succ hk)
    rw [show ((a :: pre') ++ base ++ post) = a :: (pre' ++ base ++ post) by simp,
      List.drop_succ_cons] at this
    exact this

/-- Claim C10: `extractLongRef` deletes the first literal occurrence of
`basePath` wherever it sits in `rawPath` — `replFirst` (the embedding of
`rawPath.replace(basePath, '')`) removes the leftmost occurrence even
mid-string, and `extractLongRef('notes/', 'a/notes/b.md')` produces
`{ref: 'a/b', label: ''}` with the interior `notes/` deleted. -/
theorem claim_C10_replaces_first_occurrence :
    (∀ pre base post : List Char,
        (∀ k, k < pre.length → base.isPrefixOf ((pre ++ base ++ post).drop k) = false) →
        replFirst base (pre ++ base ++ post) = pre ++ post) ∧
    extractLongRef "notes/" "a/notes/b.md" false = some ⟨"a/b", ""⟩ := by
  exact ⟨fun pre base post h => replFirst_append base post pre h, by decide⟩

/-- Claim C10 witness: the general replacement law applied to the interior
occurrence of `'notes/'` inside `'a/notes/b.md'`. -/
theorem claim_C10_replaces_first_occurrence_witness :
    replFirst "notes/".data ("a/".data ++ "notes/".data ++ "b.md".data) =
      "a/".data ++ "b.md".data :=
  claim_C10_replaces_first_occurrence.1 "a/".data "notes/".data "b.md".data (by decide)

lemma findInFile_path_eq (ref p content : String) :
    ∀ r ∈ findInFile ref p content, r.path = p := by
  intro r hr
  unfold findInFile at hr
  rw [List.mem_map] at hr
  obtain ⟨im, _, rfl⟩ := hr
  rfl

lemma findReferencesAux_not_excluded
    (fs : List (String × String)) (ref : String) (excl : List String) :
    ∀ (cache : List String) (res : List FoundRefT) (r : FoundRefT),
      findReferencesAux fs ref excl cache = some res → r ∈ res → r.path ∉ excl := by
  intro cache
  induction cache with
  | nil =>
    intro res r h hr
    injection h with h'
    subst h'
    cases hr
  | cons q ps ih =>
    intro res r h hr
    unfold findReferencesAux at h
    by_cases hq : q ∈ excl
    · rw [if_pos hq] at h
      exact ih res r h hr
    · rw [if_neg hq] at h
      cases hread : readFile fs q with
      | none => rw [hread] at h; cases h
      | some content =>
        rw [hread] at h
        cases haux : findReferencesAux fs ref excl ps with
        | none => rw [haux] at h; cases h
        | some rest =>
          rw [haux] at h
          injection h with h'
          subst h'
          rcases List.mem_append.mp hr with hin | hin
          · rw [findInFile_path_eq ref q content r hin]
            exact hq
          · exact ih rest r haux hin

/-- Claim C8: no returned hit lies in an excluded path — excluded files
are skipped before reading — and on a fixture whose only (matching) file
is excluded the result is the empty list. -/
theorem claim_C8_exclude_paths :
    (∀ (fileSystem : List (String × String)) (cache : List String) (ref : String)
        (excludePaths : List String) (res : List FoundRefT) (r : FoundRefT),
        findReferences fileSystem cache ref excludePaths = some res → r ∈ res →
        r.path ∉ excludePaths) ∧
    findReferences [("note.md", "see [[target]] and [[target|Alt]] here.")]
      ["note.md"] "target" ["note.md"] = some [] := by
  refine ⟨?_, by decide⟩
  intro fs cache ref excl res r h hr
  exact findReferencesAux_not_excluded fs ref excl cache res r h hr

/-- Claim C8 witness: a concrete scan returning one hit from `b.md`, whose
path is indeed not among the excluded paths. -/
theorem claim_C8_exclude_paths_witness :
    ({ path := "b.md", rangeStart := (0, 6), rangeEnd := (0, 12),
        matchText := "[[target]]" } : FoundRefT).path ∉ (["x.md"] : List String) :=
  claim_C8_exclude_paths.1 [("b.md", "see [[target]]")] ["b.md"] "target" ["x.md"]
    [⟨"b.md", (0, 6), (0, 12), "[[target]]"⟩]
    ⟨"b.md", (0, 6), (0, 12), "[[target]]"⟩ (by decide) (by decide)

/-- Claim C1 (counterexample): the source reads each cached file with a
bare `fs.readFileSync`; when `a.md` is unreadable the whole call aborts
(`none`) even though the readable `b.md` alone yields a hit — the hit from
the remaining file is not returned. -/
theorem claim_C1_counterexample :
    findReferences [("b.md", "see [[target]]")] ["a.md", "b.md"] "target" [] = none ∧
    findReferences [("a.md", "x"), ("b.md", "see [[target]]")] ["a.md", "b.md"]
        "target" [] =
      some [⟨"b.md", (0, 6), (0, 12), "[[target]]"⟩] := by
  decide

/-- Claim C1 (amended): a cached, non-excluded file that is unreadable is
not skipped: its read failure aborts the entire `findReferences` call and
no result list at all (in particular none of the other files' hits) is
returned. -/
theorem claim_C1_unreadable_aborts :
    ∀ (fileSystem : List (String × String)) (cache : List String) (ref : String)
      (excludePaths : List String) (p : String),
      p ∈ cache → p ∉ excludePaths → readFile fileSystem p = none →
      findReferences fileSystem cache ref excludePaths = none := by
  intro fs cache ref excl p
  induction cache with
  | nil => intro hmem _ _; cases hmem
  | cons q ps ih =>
    intro hmem hnex hread
    show findReferencesAux fs ref excl (q :: ps) = none
    unfold findReferencesAux
    by_cases hq : q ∈ excl
    · rw [if_pos hq]
      have hps : p ∈ ps := by
        rcases List.mem_cons.mp hmem with rfl | hp
        · exact absurd hq hnex
        · exact hp
      exact ih hps hnex hread
    · rw [if_neg hq]
      by_cases hpq : p = q
      · subst hpq
        rw [hread]
      · have hps : p ∈ ps := by
          rcases List.mem_cons.mp hmem with rfl | hp
          · exact absurd rfl hpq
          · exact hp
        cases hr : readFile fs q with
        | none => rfl
        | some content =>
          have : findReferencesAux fs ref excl ps = none := ih hps hnex hread
          rw [this]
          rfl

/-- Claim C1 witness: the abort law applied to a one-file cache whose file
is missing from the file system. -/
theorem claim_C1_unreadable_aborts_witness :
    findReferences [] ["a.md"] "target" [] = none :=
  claim_C1_unreadable_aborts [] ["a.md"] "target" [] "a.md" (by decide) (by decide) rfl
